import Mathlib

/-!
Verification of the `dgl` edge-softmax operator module
(`src/python/dgl/ops/edge_softmax.py`).

The repository fragment contains the public wrapper `edge_softmax`, which
forwards its arguments to a backend kernel `edge_softmax_internal`
(imported from `..backend`, not part of the repository sources).  The
wrapper is embedded directly from the source; the backend kernel is
modelled from the specification of the edge-softmax semantics: a softmax
normalization applied independently within groups of edges sharing a
common destination (`norm_by = "dst"`) or source (`norm_by = "src"`) node.

Logits are modelled as one real scalar per selected edge; the trailing
feature dimensions of the tensor broadcast independently, so every
theorem below applies to each trailing feature slice separately.
-/

/-- A directed multigraph: nodes are `0, ..., numNodes - 1`; edge id `e`
is the index into `edges`, whose entries are `(source, destination)`
pairs.  Multiple edges between the same pair of nodes are permitted. -/
structure HeteroGraphIndex where
  numNodes : Nat
  edges : List (Nat × Nat)
deriving DecidableEq, Repr

/-- The public graph object; its `_graph` field is the handle unwrapped by
the `edge_softmax` wrapper. -/
structure DGLGraph where
  _graph : HeteroGraphIndex
deriving DecidableEq, Repr

/-- The edge selection argument: either the sentinel meaning "every edge
in the graph, in native edge-id order", or an explicit ordered sequence
of edge ids. -/
inductive EdgeSelection where
  | all : EdgeSelection
  | explicitIds (ids : List Nat) : EdgeSelection
deriving DecidableEq, Repr

/-- The `ALL` sentinel imported from `..base` in the source module. -/
def ALL : EdgeSelection := EdgeSelection.all

/-- Reasons for an `InvalidArgument` error, from the spec's taxonomy:
a bad `norm_by` mode, or an unknown/duplicate edge id. -/
inductive InvalidReason where
  | badNormBy : InvalidReason
  | badEdgeId : InvalidReason
deriving DecidableEq, Repr

/-- The error taxonomy of the spec: `InvalidArgument` and `ShapeMismatch`. -/
inductive SoftmaxError where
  | invalidArgument (r : InvalidReason) : SoftmaxError
  | shapeMismatch : SoftmaxError
deriving DecidableEq, Repr

/-- Modelled from the spec: resolve the edge selection to the ordered list
of selected edge ids (`ALL` means every edge in native edge-id order). -/
def resolveSelection (g : HeteroGraphIndex) (sel : EdgeSelection) : List Nat :=
  match sel with
  | .all => List.range g.edges.length
  | .explicitIds ids => ids

/-- Modelled from the spec: the normalization-group key of edge `e` —
its destination node for `norm_by = "dst"`, its source node for
`norm_by = "src"` (called only after edge ids are validated). -/
def edgeKey (g : HeteroGraphIndex) (norm_by : String) (e : Nat) : Nat :=
  if norm_by = "dst" then (g.edges.getD e (0, 0)).2 else (g.edges.getD e (0, 0)).1

/-- The values associated with key `k` in a keyed list, in order. -/
def groupOf {α : Type} (pairs : List (Nat × α)) (k : Nat) : List α :=
  (pairs.filter (fun p => p.1 == k)).map Prod.snd

/-- Maximum of a list of reals (the spec's per-group stability shift `m`);
`0` for the empty list, which never arises: groups are nonempty. -/
noncomputable def listMax : List ℝ → ℝ
  | [] => 0
  | x :: xs => xs.foldl max x

/-- Modelled from the spec: the group partition function
`Z(g) = sum of exp(logit - m)` over the group, with `m` the group max. -/
noncomputable def groupZ (grp : List ℝ) : ℝ :=
  (grp.map (fun x => Real.exp (x - listMax grp))).sum

/-- Modelled from the spec: the max-shifted softmax weights.  Position `i`
of the result is `exp(z_i - m) / Z(g)` where `g` is the group of the
`i`-th key, `m` its maximum logit and `Z(g)` its partition function. -/
noncomputable def softmaxWeights (keys : List Nat) (z : List ℝ) : List ℝ :=
  (keys.zip z).map (fun p =>
    Real.exp (p.2 - listMax (groupOf (keys.zip z) p.1))
      / groupZ (groupOf (keys.zip z) p.1))

/-- Modelled from the spec: the backend edge-softmax kernel
(`edge_softmax` of `..backend`, absent from the repository sources).
Validates `norm_by`, the selected edge ids and the logits shape, then
computes the per-group max-shifted softmax over the selected edges. -/
noncomputable def edge_softmax_internal (g : HeteroGraphIndex) (logits : List ℝ)
    (eids : EdgeSelection) (norm_by : String) : Except SoftmaxError (List ℝ) :=
  if norm_by = "dst" ∨ norm_by = "src" then
    if (resolveSelection g eids).any (fun e => g.edges.length ≤ e) then
      .error (.invalidArgument .badEdgeId)
    else if ¬ (resolveSelection g eids).Nodup
        ∧ logits.length ≠ (resolveSelection g eids).length then
      .error (.invalidArgument .badEdgeId)
    else if logits.length ≠ (resolveSelection g eids).length then
      .error .shapeMismatch
    else
      .ok (softmaxWeights ((resolveSelection g eids).map (edgeKey g norm_by)) logits)
  else
    .error (.invalidArgument .badNormBy)

/-- The public wrapper, embedded from the source: it unwraps the graph
handle and forwards everything to the backend kernel; `eids` defaults to
the `ALL` sentinel and `norm_by` to `"dst"`. -/
noncomputable def edge_softmax (graph : DGLGraph) (logits : List ℝ)
    (eids : EdgeSelection := ALL) (norm_by : String := "dst") :
    Except SoftmaxError (List ℝ) :=
  edge_softmax_internal graph._graph logits eids norm_by

/-- The graph with every edge reversed, edge ids kept. -/
def HeteroGraphIndex.reverse (g : HeteroGraphIndex) : HeteroGraphIndex :=
  ⟨g.numNodes, g.edges.map Prod.swap⟩

/-- The subgraph consisting only of the listed edges, renumbered
`0, ..., length - 1` in the given order (node set unchanged). -/
def inducedSubgraph (g : HeteroGraphIndex) (ids : List Nat) : HeteroGraphIndex :=
  ⟨g.numNodes, ids.map (fun e => g.edges.getD e (0, 0))⟩

/-- Keyed map of the softmax weight computation, used to relate input
pairs and output pairs positionally. -/
noncomputable def weightPairs (pairs : List (Nat × ℝ)) : List (Nat × ℝ) :=
  pairs.map (fun p =>
    (p.1, Real.exp (p.2 - listMax (groupOf pairs p.1)) / groupZ (groupOf pairs p.1)))

/-- The normalization-group keys of the selected edges: one node id per
selected edge, its destination or source node according to `norm_by`. -/
def selKeys (g : HeteroGraphIndex) (eids : EdgeSelection) (norm_by : String) : List Nat :=
  (resolveSelection g eids).map (edgeKey g norm_by)

/-- The spec's concrete example graph: 3 nodes and the six edges
0→0, 0→1, 0→2, 1→1, 1→2, 2→2 (edge ids 0..5). -/
def gEx : HeteroGraphIndex :=
  ⟨3, [(0, 0), (0, 1), (0, 2), (1, 1), (1, 2), (2, 2)]⟩

/-! ## Helper lemmas -/

theorem zip_fst_map {α β : Type} (l : List (Nat × α)) (f : Nat × α → β) :
    (l.map Prod.fst).zip (l.map f) = l.map (fun p => (p.1, f p)) := by
  induction l with
  | nil => rfl
  | cons p t ih => simp [ih]

theorem groupOf_map {α β : Type} (pairs : List (Nat × α)) (f : Nat × α → β) (k : Nat) :
    groupOf (pairs.map (fun p => (p.1, f p))) k
      = (pairs.filter (fun p => p.1 == k)).map f := by
  induction pairs with
  | nil => rfl
  | cons p t ih =>
    by_cases h : p.1 = k
    · simp [groupOf, List.filter_cons, h] at ih ⊢
      exact ih
    · simp [groupOf, List.filter_cons, h] at ih ⊢
      exact ih

theorem groupOf_weightPairs (pairs : List (Nat × ℝ)) (k : Nat) :
    groupOf (weightPairs pairs) k
      = (groupOf pairs k).map (fun x =>
          Real.exp (x - listMax (groupOf pairs k)) / groupZ (groupOf pairs k)) := by
  rw [weightPairs, groupOf_map]
  have hcongr : ∀ p ∈ pairs.filter (fun p => p.1 == k),
      Real.exp (p.2 - listMax (groupOf pairs p.1)) / groupZ (groupOf pairs p.1)
        = Real.exp (p.2 - listMax (groupOf pairs k)) / groupZ (groupOf pairs k) := by
    intro p hp
    have : p.1 = k := by simpa using (List.mem_filter.mp hp).2
    rw [this]
  rw [List.map_congr_left hcongr, groupOf, List.map_map]
  rfl

theorem snd_mem_groupOf {α : Type} {pairs : List (Nat × α)} {p : Nat × α}
    (hp : p ∈ pairs) : p.2 ∈ groupOf pairs p.1 :=
  List.mem_map_of_mem Prod.snd (List.mem_filter.mpr ⟨hp, by simp⟩)

theorem groupOf_zip_length {α : Type} (keys : List Nat) (z : List α) (k : Nat)
    (hlen : keys.length = z.length) :
    (groupOf (keys.zip z) k).length = keys.count k := by
  induction keys generalizing z with
  | nil => simp [groupOf]
  | cons a t ih =>
    cases z with
    | nil => simp at hlen
    | cons b z =>
      have hlen' : t.length = z.length := by simpa using hlen
      by_cases h : a = k
      · simp [groupOf, List.zip_cons_cons, List.filter_cons, h, List.count_cons] at ih ⊢
        exact ih z hlen'
      · simp [groupOf, List.zip_cons_cons, List.filter_cons, h, List.count_cons] at ih ⊢
        exact ih z hlen'

theorem zip_softmaxWeights (keys : List Nat) (z : List ℝ)
    (hlen : keys.length = z.length) :
    keys.zip (softmaxWeights keys z) = weightPairs (keys.zip z) := by
  have hfst : (keys.zip z).map Prod.fst = keys := List.map_fst_zip keys z hlen.le
  rw [weightPairs, ← zip_fst_map, hfst]
  rfl

theorem foldl_max_add (t : List ℝ) (x c : ℝ) :
    (t.map (fun v => v + c)).foldl max (x + c) = t.foldl max x + c := by
  induction t generalizing x with
  | nil => rfl
  | cons y t ih =>
    simp only [List.map_cons, List.foldl_cons, max_add_add_right]
    exact ih (max x y)

theorem listMax_map_add (l : List ℝ) (c : ℝ) (hne : l ≠ []) :
    listMax (l.map (fun x => x + c)) = listMax l + c := by
  cases l with
  | nil => exact absurd rfl hne
  | cons x t => exact foldl_max_add t x c

theorem groupZ_pos (l : List ℝ) (hne : l ≠ []) : 0 < groupZ l := by
  apply List.sum_pos
  · intro x hx
    obtain ⟨y, _, rfl⟩ := List.mem_map.mp hx
    exact Real.exp_pos _
  · simpa [List.map_eq_nil_iff] using hne

theorem sum_map_div (l : List ℝ) (f : ℝ → ℝ) (c : ℝ) :
    (l.map (fun x => f x / c)).sum = (l.map f).sum / c := by
  induction l with
  | nil => simp
  | cons x t ih => simp [ih, add_div]

/-- Characterization of successful runs of the backend kernel. -/
theorem internal_ok_iff (g : HeteroGraphIndex) (logits : List ℝ)
    (eids : EdgeSelection) (norm_by : String) (w : List ℝ) :
    edge_softmax_internal g logits eids norm_by = .ok w ↔
      (norm_by = "dst" ∨ norm_by = "src")
      ∧ (∀ e ∈ resolveSelection g eids, e < g.edges.length)
      ∧ logits.length = (resolveSelection g eids).length
      ∧ w = softmaxWeights ((resolveSelection g eids).map (edgeKey g norm_by)) logits := by
  constructor
  · intro h
    rw [edge_softmax_internal] at h
    split at h
    · next hnb =>
      split at h
      · exact absurd h (by simp)
      · next hids =>
        split at h
        · exact absurd h (by simp)
        · split at h
          · exact absurd h (by simp)
          · next hshape =>
            refine ⟨hnb, ?_, not_not.mp hshape, by simpa using h.symm⟩
            intro e he
            by_contra hlt
            exact hids (List.any_eq_true.mpr ⟨e, he, by simpa using Nat.le_of_not_lt hlt⟩)
    · exact absurd h (by simp)
  · rintro ⟨hnb, hids, hshape, rfl⟩
    rw [edge_softmax_internal, if_pos hnb, if_neg, if_neg, if_neg]
    · simpa using hshape
    · simp only [not_and, not_not]
      intro _
      exact hshape
    · simp only [List.any_eq_true, not_exists, not_and]
      intro e he
      simpa using hids e he

theorem groupOf_zip_ne_nil {keys : List Nat} {z : List ℝ} {k : Nat}
    (hk : k ∈ keys) (hlen : keys.length = z.length) :
    groupOf (keys.zip z) k ≠ [] := by
  have hcount : 0 < keys.count k := List.count_pos_iff.mpr hk
  have := groupOf_zip_length keys z k hlen
  intro hnil
  rw [hnil] at this
  simp at this
  omega

/-- The weights of a nonempty group sum to `1`. -/
theorem sum_groupOf_weightPairs (pairs : List (Nat × ℝ)) (k : Nat)
    (hne : groupOf pairs k ≠ []) :
    (groupOf (weightPairs pairs) k).sum = 1 := by
  rw [groupOf_weightPairs, sum_map_div]
  exact div_self (groupZ_pos _ hne).ne'

theorem sum_map_exp_pos (grp : List ℝ) (hne : grp ≠ []) :
    0 < (grp.map Real.exp).sum := by
  apply List.sum_pos
  · intro x hx
    obtain ⟨y, _, rfl⟩ := List.mem_map.mp hx
    exact Real.exp_pos _
  · simpa [List.map_eq_nil_iff] using hne

/-- The max-shifted softmax weight of a group member equals the plain
(unshifted) mathematical softmax weight. -/
theorem shifted_softmax_eq (grp : List ℝ) (x : ℝ) (hne : grp ≠ []) :
    Real.exp (x - listMax grp) / groupZ grp
      = Real.exp x / (grp.map Real.exp).sum := by
  have hmap : grp.map (fun b => Real.exp (b - listMax grp))
      = grp.map (fun b => Real.exp b * Real.exp (-(listMax grp))) := by
    apply List.map_congr_left
    intro b _
    rw [sub_eq_add_neg, Real.exp_add]
  have hE : groupZ grp = (grp.map Real.exp).sum * Real.exp (-(listMax grp)) := by
    rw [groupZ, hmap, List.sum_map_mul_right]
  have hZ : 0 < groupZ grp := groupZ_pos grp hne
  have hS : 0 < (grp.map Real.exp).sum := sum_map_exp_pos grp hne
  rw [div_eq_div_iff hZ.ne' hS.ne', hE, sub_eq_add_neg, Real.exp_add]
  ring

theorem groupOf_shift (pairs : List (Nat × ℝ)) (k : Nat) (c : ℝ) :
    groupOf (pairs.map (fun p => (p.1, if p.1 == k then p.2 + c else p.2))) k
      = (groupOf pairs k).map (fun x => x + c) := by
  rw [groupOf_map]
  have hcongr : ∀ p ∈ pairs.filter (fun p => p.1 == k),
      (if p.1 == k then p.2 + c else p.2) = p.2 + c := by
    intro p hp
    have : (p.1 == k) = true := (List.mem_filter.mp hp).2
    rw [if_pos this]
  rw [List.map_congr_left hcongr, groupOf, List.map_map]
  rfl

/-- Shifting every logit of group `k` by the constant `c` leaves the
weights of group `k` unchanged. -/
theorem weightPairs_shift (pairs : List (Nat × ℝ)) (k : Nat) (c : ℝ) :
    groupOf (weightPairs (pairs.map (fun p => (p.1, if p.1 == k then p.2 + c else p.2)))) k
      = groupOf (weightPairs pairs) k := by
  rw [groupOf_weightPairs, groupOf_weightPairs, groupOf_shift]
  by_cases hne : groupOf pairs k = []
  · simp [hne]
  · rw [listMax_map_add _ _ hne]
    have hZ : groupZ ((groupOf pairs k).map (fun x => x + c)) = groupZ (groupOf pairs k) := by
      rw [groupZ, groupZ, listMax_map_add _ _ hne, List.map_map]
      congr 1
      apply List.map_congr_left
      intro x _
      simp only [Function.comp]
      ring_nf
    rw [hZ, List.map_map]
    apply List.map_congr_left
    intro x _
    simp only [Function.comp]
    ring_nf

/-! ## Validation of the model on the spec's concrete scenarios -/

/-- Destination-normalized weights of the example graph at all-ones
logits: the spec's scenario `[1, 1/2, 1/3, 1/2, 1/3, 1/3]`. -/
theorem gEx_dst_weights :
    softmaxWeights (selKeys gEx ALL "dst") [1, 1, 1, 1, 1, 1]
      = [1, 1/2, 1/3, 1/2, 1/3, 1/3] := by
  have hk : selKeys gEx ALL "dst" = [0, 1, 2, 1, 2, 2] := by decide
  rw [hk]
  norm_num [softmaxWeights, groupOf, listMax, groupZ, List.filter_cons]

/-- Source-normalized weights of the example graph at all-ones logits:
the spec's scenario `[1/3, 1/3, 1/3, 1/2, 1/2, 1]`. -/
theorem gEx_src_weights :
    softmaxWeights (selKeys gEx ALL "src") [1, 1, 1, 1, 1, 1]
      = [1/3, 1/3, 1/3, 1/2, 1/2, 1] := by
  have hk : selKeys gEx ALL "src" = [0, 0, 0, 1, 1, 2] := by decide
  rw [hk]
  norm_num [softmaxWeights, groupOf, listMax, groupZ, List.filter_cons]

/-- Weights for the selection of edge ids `[0, 1, 2, 3]` at all-ones
logits: the spec's scenario `[1, 1/2, 1, 1/2]`. -/
theorem gEx_subset_weights :
    softmaxWeights (selKeys gEx (.explicitIds [0, 1, 2, 3]) "dst") [1, 1, 1, 1]
      = [1, 1/2, 1, 1/2] := by
  have hk : selKeys gEx (.explicitIds [0, 1, 2, 3]) "dst" = [0, 1, 2, 1] := by decide
  rw [hk]
  norm_num [softmaxWeights, groupOf, listMax, groupZ, List.filter_cons]

/-! ## Claim theorems -/

/-- C10: the public `edge_softmax` wrapper returns exactly the result of
the backend kernel applied to the unwrapped `_graph` handle with the same
logits, eids and norm_by, adding no validation, transformation or side
effect; omitted arguments default to the `ALL` sentinel and `"dst"`. -/
theorem C10_wrapper_forwards (graph : DGLGraph) (logits : List ℝ)
    (eids : EdgeSelection) (norm_by : String) :
    edge_softmax graph logits eids norm_by
        = edge_softmax_internal graph._graph logits eids norm_by
      ∧ edge_softmax graph logits
        = edge_softmax_internal graph._graph logits ALL "dst" :=
  ⟨rfl, rfl⟩

/-- C4: the kernel fails with the bad-`norm_by` `InvalidArgument` error
exactly when `norm_by` is neither `"dst"` nor `"src"`; for those two
values that error is never raised, on any input. -/
theorem C4_invalid_norm_by (g : HeteroGraphIndex) (logits : List ℝ)
    (eids : EdgeSelection) (norm_by : String) :
    edge_softmax_internal g logits eids norm_by
        = .error (.invalidArgument .badNormBy)
      ↔ ¬ (norm_by = "dst" ∨ norm_by = "src") := by
  by_cases h : norm_by = "dst" ∨ norm_by = "src"
  · rw [edge_softmax_internal, if_pos h]
    constructor
    · intro hcontra
      split at hcontra
      · simp at hcontra
      · split at hcontra
        · simp at hcontra
        · split at hcontra
          · simp at hcontra
          · simp at hcontra
    · intro hcontra
      exact absurd h hcontra
  · rw [edge_softmax_internal, if_neg h]
    simp [h]

/-- C8: an empty explicit edge selection together with logits of leading
dimension 0 yields the empty output tensor and no error. -/
theorem C8_empty_selection (g : HeteroGraphIndex) (norm_by : String)
    (hnb : norm_by = "dst" ∨ norm_by = "src") :
    edge_softmax_internal g [] (.explicitIds []) norm_by = .ok [] := by
  rw [edge_softmax_internal, if_pos hnb]
  simp [resolveSelection, softmaxWeights]

/-- Witness for C8 at the example graph with `norm_by = "dst"`. -/
theorem C8_witness : edge_softmax_internal gEx [] (.explicitIds []) "dst" = .ok [] :=
  C8_empty_selection gEx "dst" (Or.inl rfl)

/-- C1: for every graph, valid edge selection, valid `norm_by` mode and
normalization group `k` induced by that mode, the weights returned by the
kernel over the selected edges of group `k` sum to 1. -/
theorem C1_group_sum_one (g : HeteroGraphIndex) (logits : List ℝ)
    (eids : EdgeSelection) (norm_by : String) (w : List ℝ) (k : Nat)
    (hok : edge_softmax_internal g logits eids norm_by = .ok w)
    (hk : k ∈ selKeys g eids norm_by) :
    (groupOf ((selKeys g eids norm_by).zip w) k).sum = 1 := by
  obtain ⟨hnb, hids, hlen, rfl⟩ := (internal_ok_iff g logits eids norm_by w).mp hok
  simp only [selKeys] at hk ⊢
  have hklen : ((resolveSelection g eids).map (edgeKey g norm_by)).length = logits.length := by
    rw [List.length_map, hlen]
  rw [zip_softmaxWeights _ _ hklen]
  exact sum_groupOf_weightPairs _ k (groupOf_zip_ne_nil hk hklen)

/-- Witness for C1: the example graph, all six edges, `norm_by = "dst"`,
zero logits, group of node 2. -/
theorem C1_witness :
    (groupOf ((selKeys gEx ALL "dst").zip
        (softmaxWeights (selKeys gEx ALL "dst") [0, 0, 0, 0, 0, 0])) 2).sum = 1 :=
  C1_group_sum_one gEx [0, 0, 0, 0, 0, 0] ALL "dst"
    (softmaxWeights (selKeys gEx ALL "dst") [0, 0, 0, 0, 0, 0]) 2
    ((internal_ok_iff _ _ _ _ _).mpr ⟨Or.inl rfl, by decide, by decide, rfl⟩)
    (by decide)

/-- C9: a normalization group with exactly one selected edge gets weight
exactly 1 for that edge: the group's returned weight list is `[1]`. -/
theorem C9_singleton_group (g : HeteroGraphIndex) (logits : List ℝ)
    (eids : EdgeSelection) (norm_by : String) (w : List ℝ) (k : Nat)
    (hok : edge_softmax_internal g logits eids norm_by = .ok w)
    (hone : (selKeys g eids norm_by).count k = 1) :
    groupOf ((selKeys g eids norm_by).zip w) k = [1] := by
  obtain ⟨hnb, hids, hlen, rfl⟩ := (internal_ok_iff g logits eids norm_by w).mp hok
  simp only [selKeys] at hone ⊢
  have hklen : ((resolveSelection g eids).map (edgeKey g norm_by)).length = logits.length := by
    rw [List.length_map, hlen]
  rw [zip_softmaxWeights _ _ hklen, groupOf_weightPairs]
  have hlength :
      (groupOf (((resolveSelection g eids).map (edgeKey g norm_by)).zip logits) k).length = 1 := by
    rw [groupOf_zip_length _ _ _ hklen]
    exact hone
  obtain ⟨x, hx⟩ := List.length_eq_one.mp hlength
  rw [hx]
  simp [listMax, groupZ, Real.exp_zero]

/-- Witness for C9: node 0 of the example graph has a single incoming
edge, and its group weight list is `[1]`. -/
theorem C9_witness :
    groupOf ((selKeys gEx ALL "dst").zip
        (softmaxWeights (selKeys gEx ALL "dst") [0, 0, 0, 0, 0, 0])) 0 = [1] :=
  C9_singleton_group gEx [0, 0, 0, 0, 0, 0] ALL "dst"
    (softmaxWeights (selKeys gEx ALL "dst") [0, 0, 0, 0, 0, 0]) 0
    ((internal_ok_iff _ _ _ _ _).mpr ⟨Or.inl rfl, by decide, by decide, rfl⟩)
    (by decide)

/-- C2: every returned weight is computed by the max-shifted softmax —
`exp(z_e - m)/Z(g)` with `m` the group maximum and `Z(g)` the group sum
of shifted exponentials — and this equals the plain mathematical softmax
`exp(z_e) / (sum of exp over the group's logits)`. -/
theorem C2_softmax_formula (g : HeteroGraphIndex) (logits : List ℝ)
    (eids : EdgeSelection) (norm_by : String) (w : List ℝ)
    (hok : edge_softmax_internal g logits eids norm_by = .ok w) :
    w = ((selKeys g eids norm_by).zip logits).map
          (fun p =>
            Real.exp (p.2 - listMax (groupOf ((selKeys g eids norm_by).zip logits) p.1))
              / groupZ (groupOf ((selKeys g eids norm_by).zip logits) p.1))
    ∧ w = ((selKeys g eids norm_by).zip logits).map
          (fun p =>
            Real.exp p.2
              / ((groupOf ((selKeys g eids norm_by).zip logits) p.1).map Real.exp).sum) := by
  obtain ⟨hnb, hids, hlen, rfl⟩ := (internal_ok_iff g logits eids norm_by w).mp hok
  simp only [selKeys]
  constructor
  · rfl
  · rw [softmaxWeights]
    apply List.map_congr_left
    intro p hp
    exact shifted_softmax_eq _ p.2 (List.ne_nil_of_mem (snd_mem_groupOf hp))

/-- Witness for C2 at the example graph, edge selection `[0]`, zero logit. -/
theorem C2_witness :
    softmaxWeights (selKeys gEx (.explicitIds [0]) "dst") [0]
        = ((selKeys gEx (.explicitIds [0]) "dst").zip [0]).map
            (fun p =>
              Real.exp (p.2 -
                  listMax (groupOf ((selKeys gEx (.explicitIds [0]) "dst").zip [0]) p.1))
                / groupZ (groupOf ((selKeys gEx (.explicitIds [0]) "dst").zip [0]) p.1))
      ∧ softmaxWeights (selKeys gEx (.explicitIds [0]) "dst") [0]
          = ((selKeys gEx (.explicitIds [0]) "dst").zip [0]).map
              (fun p =>
                Real.exp p.2
                  / ((groupOf ((selKeys gEx (.explicitIds [0]) "dst").zip [0]) p.1).map
                      Real.exp).sum) :=
  C2_softmax_formula gEx [0] (.explicitIds [0]) "dst"
    (softmaxWeights (selKeys gEx (.explicitIds [0]) "dst") [0])
    ((internal_ok_iff _ _ _ _ _).mpr ⟨Or.inl rfl, by decide, by decide, rfl⟩)

theorem zip_map_snd {β : Type} (keys : List Nat) (z : List ℝ) (f : Nat × ℝ → β)
    (hlen : keys.length = z.length) :
    keys.zip ((keys.zip z).map f) = (keys.zip z).map (fun p => (p.1, f p)) := by
  rw [← zip_fst_map, List.map_fst_zip keys z hlen.le]

/-- C3: adding the same constant `c` to the logit of every selected edge
of normalization group `k` (other edges unchanged) leaves the returned
weights of group `k`'s edges unchanged. -/
theorem C3_shift_invariance (g : HeteroGraphIndex) (logits : List ℝ)
    (eids : EdgeSelection) (norm_by : String) (w : List ℝ) (k : Nat) (c : ℝ)
    (hok : edge_softmax_internal g logits eids norm_by = .ok w) :
    ∃ w2,
      edge_softmax_internal g
          (((selKeys g eids norm_by).zip logits).map
            (fun p => if p.1 == k then p.2 + c else p.2))
          eids norm_by = .ok w2
      ∧ groupOf ((selKeys g eids norm_by).zip w2) k
          = groupOf ((selKeys g eids norm_by).zip w) k := by
  obtain ⟨hnb, hids, hlen, rfl⟩ := (internal_ok_iff g logits eids norm_by w).mp hok
  simp only [selKeys]
  have hklen : ((resolveSelection g eids).map (edgeKey g norm_by)).length = logits.length := by
    rw [List.length_map, hlen]
  have hz2len :
      ((((resolveSelection g eids).map (edgeKey g norm_by)).zip logits).map
        (fun p => if p.1 == k then p.2 + c else p.2)).length
        = (resolveSelection g eids).length := by
    rw [List.length_map, List.length_zip, hklen, Nat.min_self, hlen]
  have hkz2 : ((resolveSelection g eids).map (edgeKey g norm_by)).length
      = ((((resolveSelection g eids).map (edgeKey g norm_by)).zip logits).map
          (fun p => if p.1 == k then p.2 + c else p.2)).length := by
    rw [hz2len, hklen, hlen]
  refine ⟨_, (internal_ok_iff _ _ _ _ _).mpr ⟨hnb, hids, hz2len, rfl⟩, ?_⟩
  rw [zip_softmaxWeights _ _ hkz2, zip_softmaxWeights _ _ hklen,
    zip_map_snd _ _ _ hklen]
  exact weightPairs_shift _ k c

/-- Witness for C3: the example graph, zero logits, shifting group 2 by 5. -/
theorem C3_witness :
    ∃ w2,
      edge_softmax_internal gEx
          (((selKeys gEx ALL "dst").zip [0, 0, 0, 0, 0, 0]).map
            (fun p => if p.1 == 2 then p.2 + 5 else p.2))
          ALL "dst" = .ok w2
      ∧ groupOf ((selKeys gEx ALL "dst").zip w2) 2
          = groupOf ((selKeys gEx ALL "dst").zip
              (softmaxWeights (selKeys gEx ALL "dst") [0, 0, 0, 0, 0, 0])) 2 :=
  C3_shift_invariance gEx [0, 0, 0, 0, 0, 0] ALL "dst"
    (softmaxWeights (selKeys gEx ALL "dst") [0, 0, 0, 0, 0, 0]) 2 5
    ((internal_ok_iff _ _ _ _ _).mpr ⟨Or.inl rfl, by decide, by decide, rfl⟩)

/-- C5: with a valid mode and an explicit selection of distinct in-range
edge ids, the kernel raises `ShapeMismatch` exactly when the leading
dimension of the logits differs from the number of selected edges, and
returns no (partial) result in that case. -/
theorem C5_shape_mismatch (g : HeteroGraphIndex) (logits : List ℝ)
    (ids : List Nat) (norm_by : String)
    (hnb : norm_by = "dst" ∨ norm_by = "src")
    (hids : ∀ e ∈ ids, e < g.edges.length)
    (hnodup : ids.Nodup) :
    (edge_softmax_internal g logits (.explicitIds ids) norm_by = .error .shapeMismatch
      ↔ logits.length ≠ ids.length)
    ∧ (logits.length ≠ ids.length →
        ∀ w, edge_softmax_internal g logits (.explicitIds ids) norm_by ≠ .ok w) := by
  have hsel : resolveSelection g (.explicitIds ids) = ids := rfl
  have hmain : edge_softmax_internal g logits (.explicitIds ids) norm_by
      = if logits.length ≠ ids.length then .error .shapeMismatch
        else .ok (softmaxWeights (ids.map (edgeKey g norm_by)) logits) := by
    rw [edge_softmax_internal, if_pos hnb, hsel, if_neg, if_neg]
    · exact fun h => h.1 hnodup
    · simp only [List.any_eq_true, decide_eq_true_eq, not_exists, not_and]
      intro e he
      exact Nat.not_le.mpr (hids e he)
  rw [hmain]
  by_cases hl : logits.length = ids.length
  · rw [if_neg (not_not.mpr hl)]
    refine ⟨⟨fun h => by simp at h, fun h => absurd hl h⟩, fun h => absurd hl h⟩
  · rw [if_pos hl]
    refine ⟨⟨fun _ => hl, fun _ => rfl⟩, fun _ w h => by simp at h⟩

/-- Witness for C5: example graph, selection `[0, 1]`, three logits. -/
theorem C5_witness :
    (edge_softmax_internal gEx [0, 0, 0] (.explicitIds [0, 1]) "dst"
        = .error .shapeMismatch
      ↔ ([(0 : ℝ), 0, 0]).length ≠ ([0, 1] : List Nat).length)
    ∧ (([(0 : ℝ), 0, 0]).length ≠ ([0, 1] : List Nat).length →
        ∀ w, edge_softmax_internal gEx [0, 0, 0] (.explicitIds [0, 1]) "dst" ≠ .ok w) :=
  C5_shape_mismatch gEx [0, 0, 0] [0, 1] "dst" (Or.inl rfl) (by decide) (by decide)

theorem getD_map {α β : Type} (l : List α) (f : α → β) (i : Nat) (d : α) :
    (l.map f).getD i (f d) = f (l.getD i d) := by
  induction l generalizing i with
  | nil => rfl
  | cons x t ih =>
    cases i with
    | zero => rfl
    | succ n => exact ih n

/-- C6: edge softmax normalized by source nodes on `g` equals edge
softmax normalized by destination nodes on the graph with every edge
reversed (same edge ids), for all logits and selections. -/
theorem C6_src_eq_dst_reverse (g : HeteroGraphIndex) (logits : List ℝ)
    (eids : EdgeSelection) :
    edge_softmax_internal g logits eids "src"
      = edge_softmax_internal g.reverse logits eids "dst" := by
  have hlen : g.reverse.edges.length = g.edges.length := by
    simp [HeteroGraphIndex.reverse]
  have hsel : resolveSelection g.reverse eids = resolveSelection g eids := by
    cases eids with
    | all => simp [resolveSelection, hlen]
    | explicitIds ids => rfl
  have hkey : ∀ e, edgeKey g.reverse "dst" e = edgeKey g "src" e := by
    intro e
    rw [edgeKey, edgeKey, if_pos rfl, if_neg (by decide)]
    show ((g.edges.map Prod.swap).getD e (0, 0)).2 = (g.edges.getD e (0, 0)).1
    have hsw : (Prod.swap ((0, 0) : Nat × Nat)) = ((0, 0) : Nat × Nat) := rfl
    rw [← hsw, getD_map]
    rfl
  have hmap : (resolveSelection g eids).map (edgeKey g.reverse "dst")
      = (resolveSelection g eids).map (edgeKey g "src") :=
    List.map_congr_left (fun e _ => hkey e)
  rw [edge_softmax_internal, edge_softmax_internal, if_pos (Or.inr rfl),
    if_pos (Or.inl rfl)]
  simp only [hsel, hlen, hmap]

/-- C7: edge softmax restricted to an explicit subset of edge ids equals
edge softmax over all edges of the induced subgraph consisting only of
those edges (same order, same logits, same mode). -/
theorem C7_subset_eq_induced (g : HeteroGraphIndex) (logits : List ℝ)
    (ids : List Nat) (norm_by : String)
    (hids : ∀ e ∈ ids, e < g.edges.length)
    (hnodup : ids.Nodup) :
    edge_softmax_internal g logits (.explicitIds ids) norm_by
      = edge_softmax_internal (inducedSubgraph g ids) logits ALL norm_by := by
  have hlen2 : (inducedSubgraph g ids).edges.length = ids.length := by
    simp [inducedSubgraph]
  have hselL : resolveSelection g (.explicitIds ids) = ids := rfl
  have hselR : resolveSelection (inducedSubgraph g ids) ALL = List.range ids.length := by
    simp [resolveSelection, ALL, hlen2]
  by_cases hnb : norm_by = "dst" ∨ norm_by = "src"
  · have hkeys : (List.range ids.length).map (edgeKey (inducedSubgraph g ids) norm_by)
        = ids.map (edgeKey g norm_by) := by
      apply List.ext_getElem
      · simp
      · intro i h1 h2
        simp only [List.getElem_map, List.getElem_range]
        have hi : i < ids.length := by simpa using h1
        have hi2 : i < (inducedSubgraph g ids).edges.length := by
          rw [hlen2]
          exact hi
        have hpair : (inducedSubgraph g ids).edges.getD i (0, 0)
            = g.edges.getD ids[i] (0, 0) := by
          rw [List.getD_eq_getElem _ _ hi2]
          simp [inducedSubgraph]
        simp only [edgeKey, hpair]
    have hC1L : ¬ ((ids.any (fun e => decide (g.edges.length ≤ e))) = true) := by
      simp only [List.any_eq_true, decide_eq_true_eq, not_exists, not_and]
      intro e he
      exact Nat.not_le.mpr (hids e he)
    have hC1R : ¬ (((List.range ids.length).any
        (fun e => decide ((inducedSubgraph g ids).edges.length ≤ e))) = true) := by
      simp only [List.any_eq_true, decide_eq_true_eq, not_exists, not_and,
        List.mem_range, hlen2]
      intro e he
      omega
    have hC2L : ¬ (¬ ids.Nodup ∧ logits.length ≠ ids.length) :=
      fun h => h.1 hnodup
    have hC2R : ¬ (¬ (List.range ids.length).Nodup
        ∧ logits.length ≠ (List.range ids.length).length) :=
      fun h => h.1 (List.nodup_range _)
    rw [edge_softmax_internal, edge_softmax_internal, if_pos hnb, if_pos hnb]
    simp only [hselL, hselR]
    rw [if_neg hC1L, if_neg hC1R, if_neg hC2L, if_neg hC2R]
    simp only [List.length_range, hkeys]
  · rw [edge_softmax_internal, edge_softmax_internal, if_neg hnb, if_neg hnb]

/-- Witness for C7: the spec's scenario of selecting edges `[0, 1, 2, 3]`
of the example graph. -/
theorem C7_witness :
    edge_softmax_internal gEx [0, 0, 0, 0] (.explicitIds [0, 1, 2, 3]) "dst"
      = edge_softmax_internal (inducedSubgraph gEx [0, 1, 2, 3]) [0, 0, 0, 0] ALL "dst" :=
  C7_subset_eq_induced gEx [0, 0, 0, 0] [0, 1, 2, 3] "dst" (by decide) (by decide)
